import Mathlib

/-!
Verification of the `sus` line-frequency analyzer (`main.go`).

Shallow embedding conventions:
* A `Line` is a `List Char`; Go measures `len(line)` in bytes while the model
  measures scalar values, which coincide on ASCII input and does not affect the
  structural properties proved here.
* Go's `map[string]int` is embedded as an association list `CountMap` with
  unique keys (the `keysNodup` invariant); `m[k]` reads default to `0` and
  `m[k]++` / `m[k] += c` are `incr` / `addCount`.
* `bufio.Scanner` with `scanner.Buffer(make([]byte, maxLineLength), maxLineLength)`
  is embedded by `scanGo`: the scanner holds at most `maxLineLength` bytes, so a
  newline-terminated line fits only if its length (newline included) is at most
  `maxLineLength`, a final unterminated line only if its length is at most
  `maxLineLength`; otherwise scanning stops with `bufio.ErrTooLong`
  (`Except.error`, carrying the tokens already yielded).  `bufio.ScanLines`
  trims one trailing carriage return from each token (`dropCR`).
* `strings.ToLower` is embedded as `lowerLine` (per-scalar lowercasing; the
  inputs of interest are ASCII).
* `os.Exit(1)` via `exitWithError` is embedded as the `RunOutcome.exited 1 _`
  outcome, tagged with which fatal branch of `processInput` fired.
* Go `float64` percentages are embedded as exact rationals `ℚ`; `int` is `ℤ`;
  `int(math.Ceil(x))` is `⌈x⌉`.
* The goroutine-per-source concurrency of `processInputs` is embedded by
  quantifying over the arrival order of the per-source results: the mutex
  serializes whole merges into the shared aggregate, so a concurrent execution
  is a permutation of the sequential merge of the per-source maps.
-/

namespace Sus

/-- A line of input text (Go `string`), as a sequence of scalar values. -/
abbrev Line := List Char

/-- `maxLineLength = 1000` from the `const` block of `main.go`. -/
def maxLineLength : Nat := 1000

/-- Go string comparison `s < t`: lexicographic on the underlying scalars
(byte order and codepoint order agree on UTF-8). -/
def lineLt : Line → Line → Bool
  | [], [] => false
  | [], _ :: _ => true
  | _ :: _, [] => false
  | a :: s, b :: t => if a = b then lineLt s t else decide (a < b)

/-- `item` from `main.go`: a line of text and its frequency count. -/
structure item where
  value : Line
  count : Int
deriving DecidableEq

/-- The comparison closure passed to `sort.Slice` in `sortItems`:
`items[i]` comes strictly before `items[j]`. -/
def itemLess (a b : item) : Bool :=
  if a.count == b.count then lineLt a.value b.value else decide (a.count > b.count)

/-- The non-strict order realized by `sort.Slice(items, less)`: `a` may be
placed before `b` exactly when `less` does not demand the opposite order. -/
def itemOrder (a b : item) : Prop := itemLess b a = false

instance : DecidableRel itemOrder := fun a b => inferInstanceAs (Decidable (itemLess b a = false))

/-- `sortItems` from `main.go`.  `sort.Slice` guarantees a result that is
sorted with respect to the comparison closure; `itemOrder` is antisymmetric
(proved below), so the sorted permutation is unique and any sorting algorithm
is an equivalent embedding. -/
def sortItems (l : List item) : List item := List.insertionSort itemOrder l

/-- A frequency mapping, Go `map[string]int` (counts are non-negative),
as an association list with unique keys. -/
abbrev CountMap := List (Line × Nat)

/-- Go map read `m[k]`: absent keys read as `0`. -/
def lookupCount : CountMap → Line → Nat
  | [], _ => 0
  | (k', c) :: rest, k => if k' = k then c else lookupCount rest k

/-- Go map update `m[key] += c` (inserting `key` with `c` when absent). -/
def addCount : CountMap → Line → Nat → CountMap
  | [], key, c => [(key, c)]
  | (k', c') :: rest, key, c =>
    if k' = key then (k', c' + c) :: rest else (k', c') :: addCount rest key c

/-- Go map update `m[key]++` from `processInput`. -/
def incr (m : CountMap) (key : Line) : CountMap := addCount m key 1

/-- The keys of a mapping are pairwise distinct (a Go map invariant). -/
def keysNodup (m : CountMap) : Prop := (m.map Prod.fst).Nodup

/-- Total weight of the entries of `m` whose key is `k` (coincides with
`lookupCount` on maps satisfying `keysNodup`). -/
def sumCount (m : CountMap) (k : Line) : Nat :=
  (m.map (fun p => if p.1 = k then p.2 else 0)).sum

/-- The aggregation loop body of `processInputs`:
`for line, count := range fileCounts { aggregateCounts[line] += count }`. -/
def mergeInto (agg m : CountMap) : CountMap :=
  m.foldl (fun a p => addCount a p.1 p.2) agg

/-- `bufio.ScanLines` token post-processing: drop one trailing `'\r'`. -/
def dropCR (l : Line) : Line :=
  if l.getLast? = some '\x0d' then l.dropLast else l

/-- The scanning loop of `bufio.Scanner` over the raw input, with the token
buffer capped at `maxLineLength`.  `cur` is the (reversed) partial line held in
the buffer.  `Except.ok` returns all tokens; `Except.error` carries the tokens
yielded before the scanner failed with `bufio.ErrTooLong`. -/
def scanGo : List Char → List Char → Except (List Line) (List Line)
  | [], cur => .ok (if cur.isEmpty then [] else [dropCR cur.reverse])
  | c :: rest, cur =>
    if cur.length + 1 > maxLineLength then .error []
    else if c = '\x0a' then
      match scanGo rest [] with
      | .ok ls => .ok (dropCR cur.reverse :: ls)
      | .error ls => .error (dropCR cur.reverse :: ls)
    else scanGo rest (c :: cur)

/-- Scanning an input stream from the start. -/
def scanLines (raw : List Char) : Except (List Line) (List Line) := scanGo raw []

/-- The tokens yielded by a scan, successful or not. -/
def scanToks : Except (List Line) (List Line) → List Line
  | .ok l => l
  | .error l => l

/-- The logical lines of the raw input, with no length limit (what the input
"contains" independently of the scanner's buffer cap). -/
def splitGo : List Char → List Char → List Line
  | [], cur => if cur.isEmpty then [] else [dropCR cur.reverse]
  | c :: rest, cur =>
    if c = '\x0a' then dropCR cur.reverse :: splitGo rest [] else splitGo rest (c :: cur)

/-- The logical lines of an input stream. -/
def splitLines (raw : List Char) : List Line := splitGo raw []

/-- `strings.ToLower` on a line (scalar-wise lowercasing). -/
def lowerLine (l : Line) : Line := l.map Char.toLower

/-- The key under which `processInput` counts a scanned line:
`if ignoreCase { line = strings.ToLower(line) }`. -/
def keyOf (ignoreCase : Bool) (t : Line) : Line := if ignoreCase then lowerLine t else t

/-- Which fatal branch fired: the `len(line) > maxLineLength` check inside the
scan loop, or the `scanner.Err() != nil` check after it. -/
inductive Fatal where
  | lineTooLong
  | readError
deriving DecidableEq

/-- Outcome of running `processInput`: a completed mapping, or process
termination through `exitWithError` (which prints and calls `os.Exit(1)`). -/
inductive RunOutcome where
  | completed (counts : CountMap)
  | exited (code : Nat) (why : Fatal)
deriving DecidableEq

/-- One iteration of the counting loop body of `processInput` on a line that
passed the length check. -/
def countStep (ignoreCase : Bool) (m : CountMap) (t : Line) : CountMap :=
  incr m (keyOf ignoreCase t)

/-- The `for scanner.Scan()` loop of `processInput` over the yielded tokens:
each token is length-checked, then lowercased if requested, then counted. -/
def runScan (ignoreCase : Bool) : List Line → CountMap → Except Fatal CountMap
  | [], m => .ok m
  | t :: ts, m =>
    if t.length > maxLineLength then .error .lineTooLong
    else runScan ignoreCase ts (countStep ignoreCase m t)

/-- `processInput` from `main.go`: scan the raw input, counting each yielded
token; a token failing the length check or a scanner error is fatal
(`exitWithError`, exit code 1). -/
def processInput (raw : List Char) (ignoreCase : Bool) : RunOutcome :=
  match scanLines raw with
  | .ok toks =>
    match runScan ignoreCase toks [] with
    | .ok m => .completed m
    | .error f => .exited 1 f
  | .error pre =>
    match runScan ignoreCase pre [] with
    | .error f => .exited 1 f
    | .ok _ => .exited 1 .readError

/-- Counting a stream of already-scanned tokens (the successful path of
`processInput`). -/
def countTokens (toks : List Line) (ignoreCase : Bool) : CountMap :=
  toks.foldl (countStep ignoreCase) []

/-- `inputResult` from `main.go`: the name of an input source and its counts. -/
structure inputResult where
  name : String
  counts : CountMap
deriving DecidableEq

/-- The shared aggregate mapping built by the workers of `processInputs`: each
worker merges its finished per-source mapping into the accumulator under the
mutex, so an execution is a fold of whole-map merges in arrival order. -/
def aggregateOf (sources : List (String × List Line)) (ignoreCase : Bool) : CountMap :=
  sources.foldl (fun agg s => mergeInto agg (countTokens s.2 ignoreCase)) []

/-- `processInputs` from `main.go` on the successful path, with per-source
results listed in source order (the channel arrival order is covered by
quantifying theorems over all `sources` lists): one `inputResult` per source,
plus the `"Aggregate"` result appended when `aggregate && len(inputs) > 1`. -/
def processInputs (sources : List (String × List Line)) (ignoreCase aggregate : Bool) :
    List inputResult :=
  let per := sources.map (fun s => { name := s.1, counts := countTokens s.2 ignoreCase : inputResult })
  if aggregate = true ∧ sources.length > 1 then
    per ++ [{ name := "Aggregate", counts := aggregateOf sources ignoreCase }]
  else per

/-- `validateFlags` from `main.go` (`Option String` embeds `error`). -/
def validateFlags (high low : Int) (highPercent lowPercent : ℚ) : Option String :=
  if high < 0 ∨ low < 0 then
    some "Error: -high and -low must be non-negative integers"
  else if highPercent < 0 ∨ highPercent > 100 ∨ lowPercent < 0 ∨ lowPercent > 100 then
    some "Error: -hp and -lp must be between 0 and 100"
  else none

/-- `determineCounts` from `main.go`: a positive percentage overrides the
absolute count for its direction via `int(math.Ceil(totalItems * p / 100))`,
and both results are capped at `totalItems` by `min`. -/
def determineCounts (totalItems high low : Int) (highPercent lowPercent : ℚ) : Int × Int :=
  let highCount := if highPercent > 0 then ⌈(totalItems : ℚ) * highPercent / 100⌉ else high
  let lowCount := if lowPercent > 0 then ⌈(totalItems : ℚ) * lowPercent / 100⌉ else low
  (min highCount totalItems, min lowCount totalItems)

/-- The worked ranking example of the specification: pre-built counts for
`apple`, `banana`, `cherry`, `date`, `elderberry`. -/
def exItems : List item :=
  [⟨"apple".toList, 3⟩, ⟨"banana".toList, 2⟩, ⟨"cherry".toList, 5⟩,
   ⟨"date".toList, 1⟩, ⟨"elderberry".toList, 4⟩]

/-- The same mapping contents listed in a different iteration order. -/
def exItemsPerm : List item :=
  [⟨"date".toList, 1⟩, ⟨"cherry".toList, 5⟩, ⟨"elderberry".toList, 4⟩,
   ⟨"banana".toList, 2⟩, ⟨"apple".toList, 3⟩]

/-- The case-sensitivity example input of the specification. -/
def rawExample : List Char := "line1\nline2\nline1\nLINE1\n".toList

/-- An input whose single line exceeds `maxLineLength`. -/
def rawLong : List Char := List.replicate 1001 'a'

/-- The aggregation example of the specification: source `A` counts
`x` twice and `y` once, source `B` counts `x` once and `z` three times. -/
def exSources : List (String × List Line) :=
  [("A", ["x".toList, "x".toList, "y".toList]),
   ("B", ["x".toList, "z".toList, "z".toList, "z".toList])]

/-- The same two sources finishing in the opposite order. -/
def exArrival : List (String × List Line) :=
  [("B", ["x".toList, "z".toList, "z".toList, "z".toList]),
   ("A", ["x".toList, "x".toList, "y".toList])]

/-- Outcome of the control flow of `main` around flag validation. -/
inductive MainOutcome where
  | configError (msg : String)
  | ran (results : List inputResult)
deriving DecidableEq

/-- The control flow of `main` relevant to validation: `validateFlags` runs
first, and on error `exitWithError` fires before `collectInputs` opens any
input and before `processInputs` touches any source. -/
def mainModel (high low : Int) (highPercent lowPercent : ℚ) (ignoreCase aggregate : Bool)
    (sources : List (String × List Line)) : MainOutcome :=
  match validateFlags high low highPercent lowPercent with
  | some e => .configError e
  | none => .ran (processInputs sources ignoreCase aggregate)

/-! ### Properties of the lexicographic line order -/

theorem lineLt_irrefl (s : Line) : lineLt s s = false := by
  induction s with
  | nil => rfl
  | cons c s ih => simp [lineLt, ih]

theorem lineLt_asymm : ∀ s t : Line, lineLt s t = true → lineLt t s = false
  | [], [], h => by simp [lineLt] at h
  | [], _ :: _, _ => rfl
  | _ :: _, [], h => by simp [lineLt] at h
  | a :: s, b :: t, h => by
    by_cases hab : a = b
    · subst hab
      simp only [lineLt, if_pos rfl] at h ⊢
      exact lineLt_asymm s t h
    · simp only [lineLt, if_neg hab, decide_eq_true_eq] at h
      have hba : b ≠ a := fun e => hab e.symm
      simp [lineLt, if_neg hba, lt_asymm h]

theorem lineLt_trans : ∀ s t u : Line,
    lineLt s t = true → lineLt t u = true → lineLt s u = true
  | [], _ :: _, _ :: _, _, _ => rfl
  | [], [], _, h, _ => by simp [lineLt] at h
  | [], _ :: _, [], _, h2 => by simp [lineLt] at h2
  | _ :: _, [], _, h, _ => by simp [lineLt] at h
  | _ :: _, _ :: _, [], _, h2 => by simp [lineLt] at h2
  | a :: s, b :: t, c :: u, h1, h2 => by
    by_cases hab : a = b <;> by_cases hbc : b = c
    · subst hab; subst hbc
      simp only [lineLt, if_pos rfl] at h1 h2 ⊢
      exact lineLt_trans s t u h1 h2
    · subst hab
      simp only [lineLt, if_pos rfl] at h1
      simpa only [lineLt, if_neg hbc] using h2
    · subst hbc
      simpa only [lineLt, if_neg hab] using h1
    · simp only [lineLt, if_neg hab, decide_eq_true_eq] at h1
      simp only [lineLt, if_neg hbc, decide_eq_true_eq] at h2
      have hac : a < c := lt_trans h1 h2
      simp [lineLt, if_neg (ne_of_lt hac), hac]

theorem lineLt_conn : ∀ s t : Line, lineLt s t = false → lineLt t s = false → s = t
  | [], [], _, _ => rfl
  | [], _ :: _, h1, _ => by simp [lineLt] at h1
  | _ :: _, [], _, h2 => by simp [lineLt] at h2
  | a :: s, b :: t, h1, h2 => by
    by_cases hab : a = b
    · subst hab
      simp only [lineLt, if_pos rfl] at h1 h2
      rw [lineLt_conn s t h1 h2]
    · have hba : b ≠ a := fun e => hab e.symm
      simp only [lineLt, if_neg hab, decide_eq_false_iff_not, not_lt] at h1
      simp only [lineLt, if_neg hba, decide_eq_false_iff_not, not_lt] at h2
      exact absurd (le_antisymm h2 h1) hab

/-! ### The order realized by `sortItems` -/

theorem itemLess_eq_true_iff (a b : item) :
    itemLess a b = true ↔
      (a.count = b.count ∧ lineLt a.value b.value = true) ∨ b.count < a.count := by
  simp only [itemLess]
  rcases eq_or_ne a.count b.count with h | h
  · simp [h]
  · simp only [beq_eq_false_iff_ne, ne_eq, h, not_false_iff, if_neg, beq_iff_eq,
      decide_eq_true_eq, gt_iff_lt]
    simp [h]

theorem itemLess_asymm (a b : item) (h : itemLess a b = true) : itemLess b a = false := by
  cases hba : itemLess b a with
  | false => rfl
  | true =>
    exfalso
    rw [itemLess_eq_true_iff] at h hba
    rcases h with ⟨hc, hv⟩ | hc <;> rcases hba with ⟨hc', hv'⟩ | hc'
    · exact absurd (lineLt_asymm _ _ hv) (by simp [hv'])
    · omega
    · omega
    · omega

theorem itemOrder_iff (a b : item) :
    itemOrder a b ↔
      b.count < a.count ∨ (a.count = b.count ∧ lineLt b.value a.value = false) := by
  unfold itemOrder
  rw [← Bool.not_eq_true, itemLess_eq_true_iff]
  push_neg
  constructor
  · rintro ⟨hv, hc⟩
    rcases lt_trichotomy a.count b.count with h | h | h
    · exact absurd h (by omega)
    · exact Or.inr ⟨h, Bool.eq_false_iff.mpr (hv h.symm)⟩
    · exact Or.inl h
  · rintro (h | ⟨hc, hv⟩)
    · exact ⟨fun e => absurd e (by omega), by omega⟩
    · exact ⟨fun _ => by simp [hv], by omega⟩

theorem itemOrder_total (a b : item) : itemOrder a b ∨ itemOrder b a := by
  unfold itemOrder
  cases hba : itemLess b a with
  | false => exact Or.inl rfl
  | true => exact Or.inr (itemLess_asymm b a hba)

theorem itemOrder_trans (a b c : item) :
    itemOrder a b → itemOrder b c → itemOrder a c := by
  rw [itemOrder_iff, itemOrder_iff, itemOrder_iff]
  rintro (h1 | ⟨h1, v1⟩) (h2 | ⟨h2, v2⟩)
  · exact Or.inl (lt_trans h2 h1)
  · exact Or.inl (h2 ▸ h1)
  · exact Or.inl (h1 ▸ h2)
  · refine Or.inr ⟨h1.trans h2, ?_⟩
    cases hca : lineLt c.value a.value with
    | false => rfl
    | true =>
      exfalso
      cases hbc : lineLt b.value c.value with
      | true => exact absurd (lineLt_trans _ _ _ hbc hca) (by simp [v1])
      | false =>
        have hcb : c.value = b.value := lineLt_conn _ _ v2 hbc
        rw [hcb] at hca
        exact absurd hca (by simp [v1])

theorem itemOrder_antisymm (a b : item) :
    itemOrder a b → itemOrder b a → a = b := by
  rw [itemOrder_iff, itemOrder_iff]
  rintro (h1 | ⟨h1, v1⟩) (h2 | ⟨h2, v2⟩)
  · exact absurd (lt_trans h1 h2) (lt_irrefl _)
  · exact absurd (h2 ▸ h1) (lt_irrefl _)
  · exact absurd (h1 ▸ h2) (lt_irrefl _)
  · obtain ⟨av, ac⟩ := a
    obtain ⟨bv, bc⟩ := b
    simp only [item.mk.injEq]
    exact ⟨lineLt_conn av bv v2 v1, h1⟩

/-! ### Counting-map lemmas -/

theorem lookupCount_addCount (m : CountMap) (key q : Line) (c : Nat) :
    lookupCount (addCount m key c) q = lookupCount m q + (if key = q then c else 0) := by
  induction m with
  | nil => by_cases h : key = q <;> simp [addCount, lookupCount, h]
  | cons p rest ih =>
    obtain ⟨k', c'⟩ := p
    by_cases h1 : k' = key
    · subst h1
      by_cases h2 : k' = q
      · subst h2
        simp [addCount, lookupCount]
      · simp [addCount, lookupCount, h2]
    · by_cases h2 : k' = q
      · subst h2
        have hkq : ¬key = k' := fun e => h1 e.symm
        simp [addCount, lookupCount, h1, hkq]
      · simp [addCount, lookupCount, h1, h2, ih]

theorem mem_keys_addCount (m : CountMap) (key q : Line) (c : Nat) :
    q ∈ (addCount m key c).map Prod.fst ↔ q ∈ m.map Prod.fst ∨ q = key := by
  induction m with
  | nil => simp [addCount]
  | cons p rest ih =>
    obtain ⟨k', c'⟩ := p
    by_cases h1 : k' = key
    · simp_all [addCount]
    · simp_all [addCount]
      tauto

theorem keysNodup_addCount (m : CountMap) (key : Line) (c : Nat) (h : keysNodup m) :
    keysNodup (addCount m key c) := by
  induction m with
  | nil => simp [addCount, keysNodup]
  | cons p rest ih =>
    obtain ⟨k', c'⟩ := p
    simp only [keysNodup, List.map_cons, List.nodup_cons] at h
    by_cases h1 : k' = key
    · simpa [keysNodup, addCount, h1] using h
    · simp only [addCount, if_neg h1, keysNodup, List.map_cons, List.nodup_cons]
      refine ⟨?_, ih h.2⟩
      rw [mem_keys_addCount]
      rintro (hm | he)
      · exact h.1 hm
      · exact h1 he

theorem sumCount_cons (k' : Line) (c' : Nat) (rest : CountMap) (k : Line) :
    sumCount ((k', c') :: rest) k = (if k' = k then c' else 0) + sumCount rest k := by
  simp [sumCount]

theorem sumCount_eq_zero (m : CountMap) (k : Line) (h : k ∉ m.map Prod.fst) :
    sumCount m k = 0 := by
  induction m with
  | nil => rfl
  | cons p rest ih =>
    obtain ⟨k', c'⟩ := p
    simp only [List.map_cons, List.mem_cons, not_or] at h
    have hk : k' ≠ k := fun e => h.1 e.symm
    rw [sumCount_cons, if_neg hk, ih h.2]

theorem sumCount_eq_lookupCount (m : CountMap) (k : Line) (h : keysNodup m) :
    sumCount m k = lookupCount m k := by
  induction m with
  | nil => rfl
  | cons p rest ih =>
    obtain ⟨k', c'⟩ := p
    simp only [keysNodup, List.map_cons, List.nodup_cons] at h
    by_cases hq : k' = k
    · subst hq
      rw [sumCount_cons, if_pos rfl, sumCount_eq_zero rest k' h.1]
      simp [lookupCount]
    · rw [sumCount_cons, if_neg hq, ih h.2]
      simp [lookupCount, hq]

theorem lookupCount_mergeInto (m : CountMap) (agg : CountMap) (k : Line) :
    lookupCount (mergeInto agg m) k = lookupCount agg k + sumCount m k := by
  induction m generalizing agg with
  | nil => simp [mergeInto, sumCount]
  | cons p rest ih =>
    obtain ⟨k', c'⟩ := p
    have hstep : mergeInto agg ((k', c') :: rest) = mergeInto (addCount agg k' c') rest := by
      simp [mergeInto]
    rw [hstep, ih, lookupCount_addCount, sumCount_cons]
    split_ifs <;> omega

theorem lookupCount_foldl_countStep (toks : List Line) (ic : Bool) (m : CountMap) (k : Line) :
    lookupCount (toks.foldl (countStep ic) m) k
      = lookupCount m k + toks.countP (fun t => decide (keyOf ic t = k)) := by
  induction toks generalizing m with
  | nil => simp
  | cons t ts ih =>
    simp only [List.foldl_cons, List.countP_cons]
    rw [ih, show countStep ic m t = addCount m (keyOf ic t) 1 from rfl, lookupCount_addCount]
    simp only [decide_eq_true_eq]
    split_ifs <;> omega

theorem lookupCount_countTokens (toks : List Line) (ic : Bool) (k : Line) :
    lookupCount (countTokens toks ic) k = toks.countP (fun t => decide (keyOf ic t = k)) := by
  rw [countTokens, lookupCount_foldl_countStep]
  simp [lookupCount]

theorem keysNodup_foldl_countStep (toks : List Line) (ic : Bool) (m : CountMap)
    (h : keysNodup m) : keysNodup (toks.foldl (countStep ic) m) := by
  induction toks generalizing m with
  | nil => exact h
  | cons t ts ih => exact ih _ (keysNodup_addCount _ _ _ h)

theorem keysNodup_countTokens (toks : List Line) (ic : Bool) :
    keysNodup (countTokens toks ic) :=
  keysNodup_foldl_countStep toks ic [] (by simp [keysNodup])

theorem counts_pos_addCount (m : CountMap) (key : Line) (c : Nat) (hc : 1 ≤ c)
    (h : ∀ p ∈ m, 1 ≤ p.2) : ∀ p ∈ addCount m key c, 1 ≤ p.2 := by
  induction m with
  | nil =>
    intro p hp
    simp only [addCount, List.mem_singleton] at hp
    simp [hp, hc]
  | cons hd rest ih =>
    obtain ⟨k', c'⟩ := hd
    intro p hp
    by_cases h1 : k' = key
    · simp only [addCount, if_pos h1, List.mem_cons] at hp
      rcases hp with hp | hp
      · have := h (k', c') (List.mem_cons_self _ _)
        simp only at this
        simp [hp]
        omega
      · exact h p (List.mem_cons_of_mem _ hp)
    · simp only [addCount, if_neg h1, List.mem_cons] at hp
      rcases hp with hp | hp
      · exact hp ▸ h (k', c') (List.mem_cons_self _ _)
      · exact ih (fun q hq => h q (List.mem_cons_of_mem _ hq)) p hp

theorem counts_pos_foldl (toks : List Line) (ic : Bool) (m : CountMap)
    (h : ∀ p ∈ m, 1 ≤ p.2) : ∀ p ∈ toks.foldl (countStep ic) m, 1 ≤ p.2 := by
  induction toks generalizing m with
  | nil => exact h
  | cons t ts ih => exact ih _ (counts_pos_addCount _ _ _ (le_refl 1) h)

/-! ### Scanner lemmas -/

theorem dropCR_length_le (l : Line) : (dropCR l).length ≤ l.length := by
  rw [dropCR]
  split_ifs
  · rw [List.length_dropLast]
    omega
  · exact le_refl _

theorem scanToks_bound (s : List Char) : ∀ cur : List Char, cur.length ≤ maxLineLength →
    ∀ t ∈ scanToks (scanGo s cur), t.length ≤ maxLineLength := by
  induction s with
  | nil =>
    intro cur hcur t ht
    simp only [scanGo, scanToks] at ht
    by_cases hc : cur.isEmpty
    · rw [if_pos hc] at ht
      simp at ht
    · rw [if_neg hc] at ht
      simp only [List.mem_singleton] at ht
      subst ht
      exact le_trans (dropCR_length_le _) (by simpa using hcur)
  | cons c rest ih =>
    intro cur hcur t ht
    by_cases hfull : cur.length + 1 > maxLineLength
    · simp [scanGo, if_pos hfull, scanToks] at ht
    · by_cases hnl : c = '\x0a'
      · have hd : (dropCR cur.reverse).length ≤ maxLineLength :=
          le_trans (dropCR_length_le _) (by simp; omega)
        cases hrec : scanGo rest [] with
        | ok ls =>
          simp only [scanGo, if_neg hfull, if_pos hnl, hrec, scanToks, List.mem_cons] at ht
          rcases ht with ht | ht
          · exact ht ▸ hd
          · exact ih [] (by simp [maxLineLength]) t (by simp [hrec, scanToks, ht])
        | error ls =>
          simp only [scanGo, if_neg hfull, if_pos hnl, hrec, scanToks, List.mem_cons] at ht
          rcases ht with ht | ht
          · exact ht ▸ hd
          · exact ih [] (by simp [maxLineLength]) t (by simp [hrec, scanToks, ht])
      · simp only [scanGo, if_neg hfull, if_neg hnl] at ht
        exact ih (c :: cur) (by simp; omega) t ht

theorem scanGo_ok_eq_splitGo (s : List Char) : ∀ cur toks,
    scanGo s cur = Except.ok toks → toks = splitGo s cur := by
  induction s with
  | nil =>
    intro cur toks heq
    simp only [scanGo] at heq
    cases heq
    rfl
  | cons c rest ih =>
    intro cur toks heq
    by_cases hfull : cur.length + 1 > maxLineLength
    · simp [scanGo, if_pos hfull] at heq
    · by_cases hnl : c = '\x0a'
      · cases hrec : scanGo rest [] with
        | ok ls =>
          simp only [scanGo, if_neg hfull, if_pos hnl, hrec, Except.ok.injEq] at heq
          subst heq
          simp [splitGo, if_pos hnl, ih [] ls hrec]
        | error ls =>
          simp [scanGo, if_neg hfull, if_pos hnl, hrec] at heq
      · simp only [scanGo, if_neg hfull, if_neg hnl] at heq
        simp only [splitGo, if_neg hnl]
        exact ih (c :: cur) toks heq

theorem overlong_line_scan_error (s : List Char) (cur : List Char)
    (hcur : cur.length ≤ maxLineLength)
    (h : ∃ l ∈ splitGo s cur, maxLineLength < l.length) :
    ∃ pre, scanGo s cur = Except.error pre := by
  cases hsc : scanGo s cur with
  | error pre => exact ⟨pre, rfl⟩
  | ok toks =>
    exfalso
    obtain ⟨l, hl, hlen⟩ := h
    rw [← scanGo_ok_eq_splitGo s cur toks hsc] at hl
    have := scanToks_bound s cur hcur l (by simp [hsc, scanToks, hl])
    omega

theorem runScan_ok (ic : Bool) (toks : List Line) (m : CountMap)
    (h : ∀ t ∈ toks, t.length ≤ maxLineLength) :
    runScan ic toks m = Except.ok (toks.foldl (countStep ic) m) := by
  induction toks generalizing m with
  | nil => rfl
  | cons t ts ih =>
    have ht := h t (List.mem_cons_self _ _)
    simp only [runScan, List.foldl_cons]
    rw [if_neg (by omega)]
    exact ih _ (fun x hx => h x (List.mem_cons_of_mem _ hx))

/-- C1: For every frequency mapping, `sortItems` produces a total ordering of
its (line, count) items that is descending by count, with ties broken by
ascending lexicographic order of the line value; the result is a permutation
of the items and is uniquely determined by the mapping's contents — any two
iteration orders (permutations) of the same items sort to the same list. -/
theorem sortItems_total_order (l l' : List item) (hp : List.Perm l l') :
    List.Perm (sortItems l) l ∧
    List.Sorted
      (fun a b => b.count < a.count ∨ (a.count = b.count ∧ lineLt b.value a.value = false))
      (sortItems l) ∧
    sortItems l = sortItems l' := by
  haveI : IsTotal item itemOrder := ⟨itemOrder_total⟩
  haveI : IsTrans item itemOrder := ⟨itemOrder_trans⟩
  haveI : IsAntisymm item itemOrder := ⟨itemOrder_antisymm⟩
  refine ⟨List.perm_insertionSort _ _, ?_, ?_⟩
  · exact (List.sorted_insertionSort itemOrder l).imp (fun h => (itemOrder_iff _ _).1 h)
  · exact List.eq_of_perm_of_sorted
      ((List.perm_insertionSort itemOrder l).trans
        (hp.trans (List.perm_insertionSort itemOrder l').symm))
      (List.sorted_insertionSort itemOrder l) (List.sorted_insertionSort itemOrder l')

/-- C1 witness: the specification's ranking example, sorted from two different
iteration orders of the same mapping. -/
theorem sortItems_total_order_witness :
    (List.Perm (sortItems exItems) exItems ∧
     List.Sorted
       (fun a b => b.count < a.count ∨ (a.count = b.count ∧ lineLt b.value a.value = false))
       (sortItems exItems) ∧
     sortItems exItems = sortItems exItemsPerm) ∧
    sortItems exItems =
      [⟨"cherry".toList, 5⟩, ⟨"elderberry".toList, 4⟩, ⟨"apple".toList, 3⟩,
       ⟨"banana".toList, 2⟩, ⟨"date".toList, 1⟩] :=
  ⟨sortItems_total_order exItems exItemsPerm (by decide), by decide⟩

theorem runScan_ok_eq (ic : Bool) (toks : List Line) (m0 m : CountMap)
    (h : runScan ic toks m0 = Except.ok m) : m = toks.foldl (countStep ic) m0 := by
  induction toks generalizing m0 with
  | nil =>
    simp only [runScan, Except.ok.injEq] at h
    simp [h.symm]
  | cons t ts ih =>
    by_cases hl : t.length > maxLineLength
    · simp [runScan, if_pos hl] at h
    · simp only [runScan, if_neg hl] at h
      simpa using ih _ h

theorem processInput_completed (raw : List Char) (ic : Bool) (m : CountMap)
    (h : processInput raw ic = RunOutcome.completed m) :
    ∃ toks, scanLines raw = Except.ok toks ∧ m = countTokens toks ic := by
  unfold processInput at h
  cases hsc : scanLines raw with
  | ok tks =>
    simp only [hsc] at h
    cases hr : runScan ic tks [] with
    | ok m' =>
      simp only [hr] at h
      injection h with h
      subst h
      exact ⟨tks, rfl, runScan_ok_eq ic tks [] _ hr⟩
    | error f => simp [hr] at h
  | error pre =>
    simp only [hsc] at h
    cases hr : runScan ic pre [] with
    | ok m' => simp [hr] at h
    | error f => simp [hr] at h

/-- C9: Every count in a mapping produced by the counting loop is at least 1
(no key is present with count 0), counts never decrease as further lines are
consumed, and every mapping returned by `processInput` has all counts at
least 1. -/
theorem counts_at_least_one (toks more : List Line) (ic : Bool) (k : Line) :
    (∀ p ∈ countTokens toks ic, 1 ≤ p.2) ∧
    lookupCount (countTokens toks ic) k ≤ lookupCount (countTokens (toks ++ more) ic) k ∧
    (∀ raw m, processInput raw ic = RunOutcome.completed m → ∀ p ∈ m, 1 ≤ p.2) := by
  refine ⟨counts_pos_foldl toks ic [] (by simp), ?_, ?_⟩
  · rw [lookupCount_countTokens, lookupCount_countTokens, List.countP_append]
    omega
  · intro raw m hm p hp
    obtain ⟨tks, _, hmeq⟩ := processInput_completed raw ic m hm
    subst hmeq
    exact counts_pos_foldl tks ic [] (by simp) p hp

/-- C9 witness: instantiated on the specification's example stream. -/
theorem counts_at_least_one_witness :
    (∀ p ∈ countTokens ["x".toList, "x".toList, "y".toList] false, 1 ≤ p.2) ∧
    lookupCount (countTokens ["x".toList, "x".toList, "y".toList] false) "x".toList ≤
      lookupCount (countTokens (["x".toList, "x".toList, "y".toList] ++ ["x".toList]) false)
        "x".toList ∧
    (∀ raw m, processInput raw false = RunOutcome.completed m → ∀ p ∈ m, 1 ≤ p.2) :=
  counts_at_least_one ["x".toList, "x".toList, "y".toList] ["x".toList] false "x".toList

/-- C6: On the stream `line1\nline2\nline1\nLINE1\n`, case-insensitive mode
lowercases every line before keying, merging case variants into
`{line1 ↦ 3, line2 ↦ 1}`, while case-sensitive mode yields
`{line1 ↦ 2, line2 ↦ 1, LINE1 ↦ 1}`; in general the case-insensitive count of
a key is the number of lines whose lowercasing equals that key. -/
theorem processInput_case_modes :
    processInput rawExample true =
      RunOutcome.completed [("line1".toList, 3), ("line2".toList, 1)] ∧
    processInput rawExample false =
      RunOutcome.completed
        [("line1".toList, 2), ("line2".toList, 1), ("LINE1".toList, 1)] ∧
    (∀ toks k, lookupCount (countTokens toks true) k
        = toks.countP (fun t => decide (lowerLine t = k))) := by
  refine ⟨by decide, by decide, ?_⟩
  intro toks k
  rw [lookupCount_countTokens]
  rfl

/-- C2: With aggregation enabled, the aggregate mapping assigns to each line
the sum of that line's counts across all per-source mappings, for every
arrival order of the per-source merge operations (the mutex serializes whole
merges, so a concurrent execution is some permutation of them): no update is
lost. -/
theorem aggregate_sums_sources (sources arrival : List (String × List Line)) (ic : Bool)
    (hp : List.Perm arrival sources) (k : Line) :
    lookupCount (aggregateOf arrival ic) k
      = (sources.map (fun s => lookupCount (countTokens s.2 ic) k)).sum := by
  have main : ∀ (srcs : List (String × List Line)) (agg : CountMap),
      lookupCount (srcs.foldl (fun a s => mergeInto a (countTokens s.2 ic)) agg) k
        = lookupCount agg k + (srcs.map (fun s => lookupCount (countTokens s.2 ic) k)).sum := by
    intro srcs
    induction srcs with
    | nil => intro agg; simp
    | cons s rest ih =>
      intro agg
      simp only [List.foldl_cons, List.map_cons, List.sum_cons]
      rw [ih, lookupCount_mergeInto, sumCount_eq_lookupCount _ _ (keysNodup_countTokens _ _)]
      omega
  rw [aggregateOf, main arrival []]
  rw [List.Perm.sum_eq (hp.map (fun s => lookupCount (countTokens s.2 ic) k))]
  simp [lookupCount]

/-- C2 witness: the specification's aggregation example `A = {x:2, y:1}`,
`B = {x:1, z:3}`, merged in the reversed arrival order, sums to
`{x:3, y:1, z:3}`. -/
theorem aggregate_sums_sources_witness :
    (lookupCount (aggregateOf exArrival false) "x".toList
       = (exSources.map (fun s => lookupCount (countTokens s.2 false) "x".toList)).sum) ∧
    lookupCount (aggregateOf exArrival false) "x".toList = 3 ∧
    lookupCount (aggregateOf exArrival false) "y".toList = 1 ∧
    lookupCount (aggregateOf exArrival false) "z".toList = 3 :=
  ⟨aggregate_sums_sources exSources exArrival false (by decide) "x".toList,
   by decide, by decide, by decide⟩

/-- C5: `processInputs` returns one named result per source (same names, in
order), appends the reserved `"Aggregate"` result as the last element exactly
when aggregation was requested and there is more than one source, and with a
single source returns only that source's own result. -/
theorem processInputs_result_shape (sources : List (String × List Line)) (ic ag : Bool) :
    (processInputs sources ic ag).length
        = sources.length + (if ag = true ∧ sources.length > 1 then 1 else 0) ∧
    (processInputs sources ic ag).map inputResult.name
        = sources.map Prod.fst ++ (if ag = true ∧ sources.length > 1 then ["Aggregate"] else []) ∧
    (ag = true ∧ sources.length > 1 →
       (processInputs sources ic ag).getLast?
         = some ⟨"Aggregate", aggregateOf sources ic⟩) ∧
    (∀ nm toks, sources = [(nm, toks)] →
       processInputs sources ic ag = [⟨nm, countTokens toks ic⟩]) := by
  by_cases hcond : ag = true ∧ sources.length > 1
  · refine ⟨?_, ?_, ?_, ?_⟩
    · simp [processInputs, if_pos hcond, hcond]
    · simp [processInputs, if_pos hcond, hcond, Function.comp]
    · intro _
      simp [processInputs, if_pos hcond]
    · intro nm toks hs
      subst hs
      simp at hcond
  · refine ⟨?_, ?_, ?_, ?_⟩
    · simp [processInputs, if_neg hcond, hcond]
    · simp [processInputs, if_neg hcond, hcond, Function.comp]
    · intro h
      exact absurd h hcond
    · intro nm toks hs
      subst hs
      simp [processInputs, if_neg hcond]

/-- C7: An input stream containing a line longer than `maxLineLength` makes
`processInput` fatal for the whole run — it reaches `exitWithError` (exit
code 1, via the scanner-error branch), rather than skipping the line or
returning a partial mapping. -/
theorem overlong_line_fatal (raw : List Char) (ic : Bool)
    (h : ∃ l ∈ splitLines raw, maxLineLength < l.length) :
    processInput raw ic = RunOutcome.exited 1 Fatal.readError := by
  obtain ⟨pre, hpre⟩ :=
    overlong_line_scan_error raw [] (by simp [maxLineLength])
      (by simpa [splitLines] using h)
  have hbound : ∀ t ∈ pre, t.length ≤ maxLineLength := by
    intro t ht
    exact scanToks_bound raw [] (by simp [maxLineLength]) t (by simp [hpre, scanToks, ht])
  have h2 : scanLines raw = Except.error pre := hpre
  unfold processInput
  simp [h2, runScan_ok ic pre [] hbound]

set_option maxRecDepth 100000 in
/-- C7 witness: a single line of 1001 characters is fatal. -/
theorem overlong_line_fatal_witness :
    (∃ l ∈ splitLines rawLong, maxLineLength < l.length) ∧
    processInput rawLong false = RunOutcome.exited 1 Fatal.readError :=
  ⟨by decide, overlong_line_fatal rawLong false (by decide)⟩

/-- C10: The `len(line) > maxLineLength` branch of `processInput` is
unreachable: the scanner's buffer is capped at `maxLineLength`, so every
yielded token has length at most `maxLineLength`, and overlong lines surface
through the scanner-error branch instead. -/
theorem length_check_unreachable (raw : List Char) (ic : Bool) :
    processInput raw ic ≠ RunOutcome.exited 1 Fatal.lineTooLong ∧
    (∀ toks, scanLines raw = Except.ok toks → ∀ t ∈ toks, t.length ≤ maxLineLength) := by
  constructor
  · intro hcontra
    unfold processInput at hcontra
    cases hsc : scanLines raw with
    | ok toks =>
      have hb : ∀ t ∈ toks, t.length ≤ maxLineLength := by
        intro t ht
        exact scanToks_bound raw [] (by simp [maxLineLength]) t
          (by simp [show scanGo raw [] = Except.ok toks from hsc, scanToks, ht])
      simp [hsc, runScan_ok ic toks [] hb] at hcontra
    | error pre =>
      have hb : ∀ t ∈ pre, t.length ≤ maxLineLength := by
        intro t ht
        exact scanToks_bound raw [] (by simp [maxLineLength]) t
          (by simp [show scanGo raw [] = Except.error pre from hsc, scanToks, ht])
      simp [hsc, runScan_ok ic pre [] hb] at hcontra
  · intro toks hsc t ht
    exact scanToks_bound raw [] (by simp [maxLineLength]) t
      (by simp [show scanGo raw [] = Except.ok toks from hsc, scanToks, ht])

theorem determineCounts_fst (t high low : Int) (hp lp : ℚ) :
    (determineCounts t high low hp lp).1
      = min (if hp > 0 then ⌈(t : ℚ) * hp / 100⌉ else high) t := rfl

theorem determineCounts_snd (t high low : Int) (hp lp : ℚ) :
    (determineCounts t high low hp lp).2
      = min (if lp > 0 then ⌈(t : ℚ) * lp / 100⌉ else low) t := rfl

/-- C3 counterexample: `determineCounts` does not clamp below at 0 — a
negative absolute parameter escapes the claimed interval `[0, totalItems]`
(the lower bound only holds for the non-negative parameters `validateFlags`
admits). -/
theorem determineCounts_negative_escape :
    (determineCounts 50 (-1) 0 0 0).1 = -1 ∧ ¬ 0 ≤ (determineCounts 50 (-1) 0 0 0).1 := by
  have h : (determineCounts 50 (-1) 0 0 0).1 = -1 := by
    rw [determineCounts_fst, if_neg (by norm_num)]
    omega
  exact ⟨h, by rw [h]; norm_num⟩

/-- C3 (amended): for `totalItems ≥ 0` and non-negative absolute parameters
(which is what `validateFlags` admits into the program), both counts of
`determineCounts` lie within `[0, totalItems]` for arbitrary percentage
parameters; in particular a request for more items than exist yields exactly
`totalItems` for that direction. -/
theorem determineCounts_within_bounds (t high low : Int) (hp lp : ℚ)
    (ht : 0 ≤ t) (hh : 0 ≤ high) (hl : 0 ≤ low) :
    (0 ≤ (determineCounts t high low hp lp).1 ∧ (determineCounts t high low hp lp).1 ≤ t ∧
     0 ≤ (determineCounts t high low hp lp).2 ∧ (determineCounts t high low hp lp).2 ≤ t) ∧
    (¬hp > 0 → t ≤ high → (determineCounts t high low hp lp).1 = t) ∧
    (¬lp > 0 → t ≤ low → (determineCounts t high low hp lp).2 = t) := by
  rw [determineCounts_fst, determineCounts_snd]
  refine ⟨⟨?_, min_le_right _ _, ?_, min_le_right _ _⟩, ?_, ?_⟩
  · refine le_min ?_ ht
    split_ifs with h
    · exact Int.ceil_nonneg
        (div_nonneg (mul_nonneg (by exact_mod_cast ht) h.le) (by norm_num))
    · exact hh
  · refine le_min ?_ ht
    split_ifs with h
    · exact Int.ceil_nonneg
        (div_nonneg (mul_nonneg (by exact_mod_cast ht) h.le) (by norm_num))
    · exact hl
  · intro hnp hth
    rw [if_neg hnp]
    exact min_eq_right hth
  · intro hnp hth
    rw [if_neg hnp]
    exact min_eq_right hth

/-- C3 witness: `totalItems = 50`, `high = 60` yields `highCount = 50`. -/
theorem determineCounts_within_bounds_witness :
    ((0 ≤ (determineCounts 50 60 0 0 0).1 ∧ (determineCounts 50 60 0 0 0).1 ≤ 50 ∧
      0 ≤ (determineCounts 50 60 0 0 0).2 ∧ (determineCounts 50 60 0 0 0).2 ≤ 50) ∧
     (¬(0 : ℚ) > 0 → (50 : Int) ≤ 60 → (determineCounts 50 60 0 0 0).1 = 50) ∧
     (¬(0 : ℚ) > 0 → (50 : Int) ≤ 0 → (determineCounts 50 60 0 0 0).2 = 50)) ∧
    (determineCounts 50 60 0 0 0).1 = 50 := by
  refine ⟨determineCounts_within_bounds 50 60 0 0 0 (by norm_num) (by norm_num) (by norm_num), ?_⟩
  exact (determineCounts_within_bounds 50 60 0 0 0 (by norm_num) (by norm_num)
    (by norm_num)).2.1 (by norm_num) (by norm_num)

/-- C4 counterexample: for a percentage above 100 (which `validateFlags`
rejects at the boundary but `determineCounts` itself accepts), the computed
count is the `totalItems` cap, not the claimed ceiling formula. -/
theorem determineCounts_percent_over100 :
    (determineCounts 50 0 0 200 0).1 = 50 ∧
    ⌈((50 : Int) : ℚ) * 200 / 100⌉ = 100 ∧ (50 : Int) ≠ 100 := by
  have hceil : ⌈((50 : Int) : ℚ) * 200 / 100⌉ = (100 : Int) := by
    rw [show ((50 : Int) : ℚ) * 200 / 100 = ((100 : Int) : ℚ) by norm_num, Int.ceil_intCast]
  refine ⟨?_, hceil, by norm_num⟩
  rw [determineCounts_fst, if_pos (by norm_num), hceil]
  omega

/-- C4 (amended): for `totalItems ≥ 0` and percentages within `(0, 100]` (the
positive part of the range `validateFlags` admits), `determineCounts` computes
that direction's count as `⌈totalItems * percent / 100⌉`, ignoring the
absolute parameter; this is at least 1 when `totalItems > 0` and 0 when
`totalItems = 0`. -/
theorem determineCounts_percent_formula (t high low : Int) (hp lp : ℚ) (ht : 0 ≤ t)
    (hhp : 0 < hp) (hhp2 : hp ≤ 100) (hlp : 0 < lp) (hlp2 : lp ≤ 100) :
    (determineCounts t high low hp lp).1 = ⌈(t : ℚ) * hp / 100⌉ ∧
    (determineCounts t high low hp lp).2 = ⌈(t : ℚ) * lp / 100⌉ ∧
    (0 < t → 1 ≤ (determineCounts t high low hp lp).1 ∧
             1 ≤ (determineCounts t high low hp lp).2) ∧
    (t = 0 → (determineCounts t high low hp lp).1 = 0 ∧
             (determineCounts t high low hp lp).2 = 0) := by
  have htq : (0 : ℚ) ≤ (t : ℚ) := by exact_mod_cast ht
  have hceil_le : ∀ p : ℚ, 0 < p → p ≤ 100 → ⌈(t : ℚ) * p / 100⌉ ≤ t := by
    intro p h1 h2
    rw [Int.ceil_le]
    calc (t : ℚ) * p / 100 ≤ (t : ℚ) * 100 / 100 := by gcongr
      _ = (t : ℚ) := by ring
  have hfst : (determineCounts t high low hp lp).1 = ⌈(t : ℚ) * hp / 100⌉ := by
    rw [determineCounts_fst, if_pos hhp, min_eq_left (hceil_le hp hhp hhp2)]
  have hsnd : (determineCounts t high low hp lp).2 = ⌈(t : ℚ) * lp / 100⌉ := by
    rw [determineCounts_snd, if_pos hlp, min_eq_left (hceil_le lp hlp hlp2)]
  refine ⟨hfst, hsnd, ?_, ?_⟩
  · intro htpos
    have htq' : (0 : ℚ) < (t : ℚ) := by exact_mod_cast htpos
    constructor
    · rw [hfst]
      exact Int.ceil_pos.mpr (by positivity)
    · rw [hsnd]
      exact Int.ceil_pos.mpr (by positivity)
  · intro ht0
    subst ht0
    rw [hfst, hsnd]
    norm_num

/-- C4 witness: `totalItems = 100` with `hp = 20` gives 20 and with
`lp = 5.5` gives `⌈5.5⌉ = 6`. -/
theorem determineCounts_percent_formula_witness :
    (determineCounts 100 0 0 20 (11 / 2)).1 = 20 ∧
    (determineCounts 100 0 0 20 (11 / 2)).2 = 6 := by
  have h := determineCounts_percent_formula 100 0 0 20 (11 / 2) (by norm_num)
    (by norm_num) (by norm_num) (by norm_num) (by norm_num)
  refine ⟨?_, ?_⟩
  · rw [h.1, show ((100 : Int) : ℚ) * 20 / 100 = ((20 : Int) : ℚ) by norm_num, Int.ceil_intCast]
  · rw [h.2.1]
    rw [show ((100 : Int) : ℚ) * (11 / 2) / 100 = (11 / 2 : ℚ) by norm_num]
    rw [Int.ceil_eq_iff]
    norm_num

/-- C8: `validateFlags` reports an error exactly when an absolute count is
negative or a percentage lies outside `[0, 100]`, and in `main` this check
fires before any input is processed: on invalid flags the run ends in a
configuration error whose outcome is independent of the input sources, and on
valid flags processing proceeds. -/
theorem validateFlags_spec (high low : Int) (hp lp : ℚ) (ic ag : Bool)
    (sources sources' : List (String × List Line)) :
    ((validateFlags high low hp lp).isSome
        ↔ (high < 0 ∨ low < 0 ∨ hp < 0 ∨ hp > 100 ∨ lp < 0 ∨ lp > 100)) ∧
    (∀ e, validateFlags high low hp lp = some e →
       mainModel high low hp lp ic ag sources = MainOutcome.configError e ∧
       mainModel high low hp lp ic ag sources' = MainOutcome.configError e) ∧
    (validateFlags high low hp lp = none →
       mainModel high low hp lp ic ag sources
         = MainOutcome.ran (processInputs sources ic ag)) := by
  refine ⟨?_, ?_, ?_⟩
  · unfold validateFlags
    split_ifs with h1 h2
    · simp only [Option.isSome_some, true_iff]
      tauto
    · simp only [Option.isSome_some, true_iff]
      tauto
    · constructor
      · intro hcontra
        simp at hcontra
      · intro hrhs
        exfalso
        push_neg at h1 h2
        rcases hrhs with h | h | h | h | h | h
        · exact absurd h (not_lt.mpr h1.1)
        · exact absurd h (not_lt.mpr h1.2)
        · exact absurd h (not_lt.mpr h2.1)
        · exact absurd h (not_lt.mpr h2.2.1)
        · exact absurd h (not_lt.mpr h2.2.2.1)
        · exact absurd h (not_lt.mpr h2.2.2.2)
  · intro e he
    exact ⟨by simp [mainModel, he], by simp [mainModel, he]⟩
  · intro hn
    simp [mainModel, hn]

end Sus
